import Mathlib

/-!
Verification of the Mindset_Streams repository (src/file_import.py and
src/mindset_streams.py) against its natural-language specification.

The Python code is shallowly embedded: dataframes become lists of rows,
Python dicts become association lists whose lookup returns the LAST binding
of a key (later assignments overwrite earlier ones), NaN propagation through
astype(str) becomes the string "nan", numpy/python floats become exact
rationals, and exceptions become Except values.  The networkx calls are
modelled from the networkx implementation of the called functions
(all_shortest_paths with the default unweighted method, from_pandas_edgelist,
subgraph, compose); the edge-betweenness dictionary produced by
nx.edge_betweenness_centrality is opaque numeric data and is therefore taken
as an explicit parameter wherever the code consumes it.
-/

namespace MindsetStreams

/-- Decidable equality of Except results, used to evaluate the models at
concrete inputs. -/
instance {ε α : Type} [DecidableEq ε] [DecidableEq α] : DecidableEq (Except ε α) := fun x y =>
  match x, y with
  | .ok a, .ok b => if h : a = b then .isTrue (by simp [h]) else .isFalse (by simp [h])
  | .error e, .error f => if h : e = f then .isTrue (by simp [h]) else .isFalse (by simp [h])
  | .ok _, .error _ => .isFalse (by simp)
  | .error _, .ok _ => .isFalse (by simp)

/-! ## file_import.py -/

/-- JSON values as far as validation distinguishes them: a string, or any
non-string JSON value (number, object, array, boolean, null). -/
inductive JVal where
  | str (s : String)
  | nonstr
deriving DecidableEq

/-- Whitespace characters of the regex class \x5cs for Python str patterns:
the Unicode whitespace set (tab through carriage return, the separator
control characters 28 to 31, space, next line, no-break space, ogham space
mark, the en-quad to hair-space range, line separator, paragraph separator,
narrow no-break space, medium mathematical space and ideographic space). -/
def isSpaceChar (c : Char) : Bool :=
  (9 ≤ c.toNat && c.toNat ≤ 13) || (28 ≤ c.toNat && c.toNat ≤ 31) ||
    c.toNat == 32 || c.toNat == 0x85 || c.toNat == 0xa0 || c.toNat == 0x1680 ||
    (0x2000 ≤ c.toNat && c.toNat ≤ 0x200a) || c.toNat == 0x2028 || c.toNat == 0x2029 ||
    c.toNat == 0x202f || c.toNat == 0x205f || c.toNat == 0x3000

/-- One value checked against the schema pattern (caret, non-whitespace
class starred, dollar) under the re.search semantics jsonschema uses: the
caret anchors the match at the start of the string, the starred class
consumes non-whitespace characters, and the dollar accepts either the end
of the string or the position just before one final newline.  A value
therefore matches iff, after dropping a single trailing newline when
present, it contains no whitespace character. -/
def matches_pattern (s : String) : Bool :=
  let cs := s.toList
  let body := if cs.getLast? == some '\n' then cs.dropLast else cs
  body.all fun c => !(isSpaceChar c)

/-- file_import.validate_json: an association object validates iff every one
of its values is a string matching the whitespace-free value pattern (the
schema accepts any key and allows no non-string value type). -/
def validate_json (json_data : List (String × JVal)) : Bool :=
  json_data.all fun kv =>
    match kv.2 with
    | .str s => matches_pattern s
    | .nonstr => false

/-- Errors of the loading step: the early return after the validation failure
message, and the ValueError raised by the pandas DataFrame constructor when a
row does not have exactly as many entries as the two requested columns. -/
inductive LoadError where
  | validationError
  | valueError
deriving DecidableEq

/-- Python str() of a JSON value; in file_to_df it is only ever applied to
values of objects that passed validation, which are all strings. -/
def jsonValueStr : JVal → String
  | .str s => s
  | .nonstr => ""

/-- The record loop of file_to_df: collect list(json_object.values()) for each
object, returning no rows at all as soon as one object fails validation. -/
def collect_rows : List (List (String × JVal)) → Option (List (List String))
  | [] => some []
  | o :: rest =>
    if validate_json o then
      (collect_rows rest).map (fun rs => (o.map fun kv => jsonValueStr kv.2) :: rs)
    else
      none

/-- Lowercasing of one character (ASCII model of Python str.lower, which is
all the word data of this system uses). -/
def lowerChar (c : Char) : Char :=
  if 'A' ≤ c && c ≤ 'Z' then Char.ofNat (c.toNat + 32) else c

/-- Lowercasing of a cell, applied by astype(str).str.lower(). -/
def pyLower (s : String) : String := String.mk (s.toList.map lowerChar)

/-- The row padding of the pandas object-array construction: a row shorter
than the width of the widest row is extended with None, which the later
astype(str) renders as the string "None". -/
def padRow (width : Nat) (r : List String) : List String :=
  r ++ List.replicate (width - r.length) "None"

/-- file_import.file_to_df: validate every record (aborting the whole load on
the first invalid one, modelled by .error .validationError), build the two
column table, then lowercase every cell.  pd.DataFrame(data, columns) builds
its object array by padding every row with None up to the width of the
widest row and raises ValueError exactly when that width differs from the
two requested columns (an empty data list builds an empty table); the
ValueError is the .error .valueError case. -/
def file_to_df (json_objects : List (List (String × JVal))) :
    Except LoadError (List (List String)) :=
  match collect_rows json_objects with
  | none => .error .validationError
  | some rows =>
    if rows.isEmpty then .ok []
    else if ((rows.map List.length).foldr max 0) == 2 then
      .ok (rows.map fun r => (padRow ((rows.map List.length).foldr max 0) r).map pyLower)
    else
      .error .valueError

/-- Python dict lookup for a dict built by successive assignments recorded in
a list: the LAST binding of a key wins. -/
def dictLookup (d : List (String × String)) (k : String) : Option String :=
  (d.reverse.find? fun kv => kv.1 == k).map (·.2)

/-- The valence column entry that file_import.attach_sentiment produces for a
word: df.map(valence_dict) leaves NaN for a word absent from the valence
dict, and the subsequent astype(str).str.lower() renders NaN as the string
"nan" and lowercases present values. -/
def attach_valence (valence_dict : List (String × String)) (w : String) : String :=
  match dictLookup valence_dict w with
  | some v => pyLower v
  | none => "nan"

/-- One row of the sentiment-attached association dataframe: word 1, word 2,
word 1 valence, word 2 valence. -/
structure Row where
  w1 : String
  w2 : String
  v1 : String
  v2 : String
deriving DecidableEq

/-- file_import.attach_sentiment on a table of word pairs: attach the two
valence columns by dict lookup, then lowercase every cell of the dataframe
(the word columns are lowercased again, the valence columns once). -/
def attach_sentiment (df : List (String × String)) (valence_dict : List (String × String)) :
    List Row :=
  df.map fun p =>
    ⟨pyLower p.1, pyLower p.2, attach_valence valence_dict p.1, attach_valence valence_dict p.2⟩

/-! ## mindset_streams.py : edge_valence -/

/-- mindset_streams.edge_valence on one row: np.select evaluates the nine
listed conditions in order and takes the value of the first one that holds;
since the choice values are strings, the numpy default 0 is cast to the
string "0" for rows matching no condition. -/
def edge_valence (v1 v2 : String) : String :=
  if v1 == "neutral" && v2 == "neutral" then "neutral"
  else if v1 == "neutral" && v2 == "positive" then "neutral"
  else if v1 == "neutral" && v2 == "negative" then "neutral"
  else if v1 == "positive" && v2 == "neutral" then "neutral"
  else if v1 == "positive" && v2 == "positive" then "positive"
  else if v1 == "positive" && v2 == "negative" then "conflicting"
  else if v1 == "negative" && v2 == "neutral" then "neutral"
  else if v1 == "negative" && v2 == "positive" then "conflicting"
  else if v1 == "negative" && v2 == "negative" then "negative"
  else "0"

/-- The 3 by 3 edge-valence table stated in section 4.2 of the spec, written
from the words of the spec for the refinement comparison with edge_valence;
outside the nine tabulated combinations the table is not defined by the spec. -/
def valence_table (v1 v2 : String) : String :=
  match v1, v2 with
  | "neutral", "neutral" => "neutral"
  | "neutral", "positive" => "neutral"
  | "neutral", "negative" => "neutral"
  | "positive", "neutral" => "neutral"
  | "positive", "positive" => "positive"
  | "positive", "negative" => "conflicting"
  | "negative", "neutral" => "neutral"
  | "negative", "positive" => "conflicting"
  | "negative", "negative" => "negative"
  | _, _ => "unspecified"

/-! ## mindset_streams.py : path_type -/

/-- mindset_streams.path_type.  The valence of a node is read from
dict(subgraph.nodes(data=True)).get(node).get(valence), modelled as a
function from node to Option String.  NOTE the fourth test is modelled
exactly as written in the source: any(v == negative for v in path_valences)
AND any(v == positive for v in path) — the second generator ranges over the
raw node names of path, not over path_valences. -/
def path_type (path : List String) (valence : String → Option String) : String :=
  let path_valences := path.map valence
  if path_valences.all (fun v => v == some "positive") then "purely positive path"
  else if path_valences.all (fun v => v == some "neutral") then "purely neutral path"
  else if path_valences.all (fun v => v == some "negative") then "purely negative path"
  else if (path_valences.any fun v => v == some "negative") && (path.any fun n => n == "positive") then
    "conflicting path"
  else "mixed path"

/-- path_type as section 4.5 of the spec states it: identical to path_type
except that the conflicting test checks valence values on BOTH sides (a
negative-valence node and a positive-valence node must both occur among the
path nodes). -/
def path_type_spec (path : List String) (valence : String → Option String) : String :=
  let path_valences := path.map valence
  if path_valences.all (fun v => v == some "positive") then "purely positive path"
  else if path_valences.all (fun v => v == some "neutral") then "purely neutral path"
  else if path_valences.all (fun v => v == some "negative") then "purely negative path"
  else if (path_valences.any fun v => v == some "negative") && (path_valences.any fun v => v == some "positive") then
    "conflicting path"
  else "mixed path"

/-! ## mindset_streams.py : path_betweenness -/

/-- Lookup in the python dict returned by nx.edge_betweenness_centrality:
keys are node pairs, values are modelled as exact rationals. -/
def bLookup (d : List ((String × String) × ℚ)) (k : String × String) : Option ℚ :=
  (d.reverse.find? fun kv => kv.1 == k).map (·.2)

/-- The node-pair list of path_betweenness:
list(zip(path, path[1:] + path[:1]))[:-1]. -/
def tuple_pairs (path : List String) : List (String × String) :=
  (path.zip (path.drop 1 ++ path.take 1)).dropLast

/-- mindset_streams.path_betweenness: for each consecutive node pair of the
path, append the betweenness of the pair looked up first as (w1, w2) and
then as (w2, w1), skipping pairs found in neither orientation; return the
sum.  The betweenness dictionary computed from the base graph by networkx is
taken as an explicit parameter. -/
def path_betweenness (path : List String) (betweenness_dict : List ((String × String) × ℚ)) : ℚ :=
  ((tuple_pairs path).filterMap fun e =>
    match bLookup betweenness_dict (e.1, e.2) with
    | some b => some b
    | none => bLookup betweenness_dict (e.2, e.1)).sum

/-- Dual-orientation dictionary lookup with default 0, the per-edge value the
specification ascribes to the path_betweenness sum. -/
def edgeValD (d : List ((String × String) × ℚ)) (u v : String) : ℚ :=
  match bLookup d (u, v) with
  | some b => b
  | none =>
    match bLookup d (v, u) with
    | some b => b
    | none => 0

/-- Python round(x, 4) at exact rational inputs: scale by 10000 and round
half to even. -/
def roundHalfEven (q : ℚ) : ℤ :=
  if q - ⌊q⌋ < 1/2 then ⌊q⌋
  else if 1/2 < q - ⌊q⌋ then ⌊q⌋ + 1
  else if ⌊q⌋ % 2 == 0 then ⌊q⌋ else ⌊q⌋ + 1

/-- Python round(x, 4), the rounding applied to betweenness sums in the path
statistics table. -/
def round4 (q : ℚ) : ℚ := (roundHalfEven (q * 10000) : ℚ) / 10000

/-! ## mindset_streams.py : graphs

A networkx graph as used by this code: a node list in insertion order and an
undirected edge list keeping the orientation under which an edge was first
added.  Node and edge attributes are carried in separate structures (the
valence map built by create_base_graph, and the valence component of the edge
triples consumed by edge_colours). -/

structure Graph where
  nodes : List String
  edges : List (String × String)
deriving DecidableEq

/-- Undirected adjacency: some stored edge joins u and v in either
orientation. -/
def adj (G : Graph) (u v : String) : Bool :=
  G.edges.any fun e => (e.1 == u && e.2 == v) || (e.1 == v && e.2 == u)

/-- Add an undirected edge unless it is already present in either
orientation (nx.Graph.add_edge on an existing edge only updates
attributes). -/
def addEdge (es : List (String × String)) (e : String × String) : List (String × String) :=
  if es.any (fun f => (f.1 == e.1 && f.2 == e.2) || (f.1 == e.2 && f.2 == e.1)) then es
  else es ++ [e]

/-- mindset_streams.create_base_graph: nx.from_pandas_edgelist adds, for each
row, the two endpoint nodes (in row order, when new) and the undirected edge
(when new).  The edge valence attribute is carried by edge_valence on the
row, the node valence attribute by node_valences below. -/
def create_base_graph (df : List Row) : Graph :=
  { nodes := (df.flatMap fun r => [r.w1, r.w2]).dedup
  , edges := df.foldl (fun es r => addEdge es (r.w1, r.w2)) [] }

/-- Node valence attributes assigned by the iterrows loop of
create_base_graph: each row assigns word 1 valence then word 2 valence, and a
later row overwrites an earlier one for the same node. -/
def node_valences (df : List Row) : String → Option String := fun n =>
  dictLookup (df.flatMap fun r => [(r.w1, r.v1), (r.w2, r.v2)]) n

/-- graph.subgraph(nodes): induced subgraph on the given node set; retained
nodes follow the base graph node order and retained edges are the base edges
with both endpoints in the set. -/
def subgraphOn (G : Graph) (ns : List String) : Graph :=
  { nodes := G.nodes.filter fun n => ns.contains n
  , edges := G.edges.filter fun e => ns.contains e.1 && ns.contains e.2 }

/-- nx.compose(G, H): union of the two graphs, appending the nodes and edges
of H that G does not already have. -/
def composeGraphs (G H : Graph) : Graph :=
  { nodes := G.nodes ++ H.nodes.filter fun n => !(G.nodes.contains n)
  , edges := G.edges ++ H.edges.filter fun e =>
      !(G.edges.any fun f => (f.1 == e.1 && f.2 == e.2) || (f.1 == e.2 && f.2 == e.1)) }

/-- mindset_streams.bridge_graph: the induced subgraph of the first path,
progressively composed with the induced subgraph of each further path. -/
def bridge_graph (G : Graph) (paths : List (List String)) : Graph :=
  (paths.drop 1).foldl (fun sg path => composeGraphs sg (subgraphOn G path))
    (subgraphOn G (paths.headD []))

/-- subgraph.remove_edges_from(nx.selfloop_edges(subgraph)). -/
def remove_selfloops (G : Graph) : Graph :=
  { nodes := G.nodes, edges := G.edges.filter fun e => e.1 != e.2 }

/-- Valence lookup that path_type performs against a subgraph:
dict(subgraph.nodes(data=True)).get(node).get(valence); a node outside the
subgraph is modelled as having no valence (the Python code would fail on the
.get chain there; no claim touches that case). -/
def subgraph_valence (sub : Graph) (df : List Row) : String → Option String :=
  fun n => if sub.nodes.contains n then node_valences df n else none

/-! ## mindset_streams.py : shortest_paths -/

/-- Exceptions of the networkx shortest-path machinery: NodeNotFound (raised
by nx.predecessor when the source is not in the graph) and NetworkXNoPath
(raised when the target is not reachable from the source, in particular also
when the target is absent from the graph). -/
inductive NxError where
  | nodeNotFound
  | noPath
deriving DecidableEq

/-- Both endpoints of every edge, in edge order. -/
def endpointsList (G : Graph) : List String := G.edges.flatMap fun e => [e.1, e.2]

/-- Neighbours of a node. -/
def neighbors (G : Graph) (u : String) : List String :=
  (endpointsList G).dedup.filter fun v => adj G u v

/-- All walks with exactly k edges from u to t, extending at the head. -/
def walksBetween (G : Graph) (u t : String) : Nat → List (List String)
  | 0 => if u == t then [[u]] else []
  | Nat.succ k => (neighbors G u).flatMap fun v => (walksBetween G v t k).map fun w => u :: w

/-- Consecutive adjacency along a node list. -/
def chainAdj (G : Graph) : List String → Bool
  | [] => true
  | [_] => true
  | u :: v :: rest => adj G u v && chainAdj G (v :: rest)

/-- A walk from s to t in G: nonempty node list starting at s, ending at t,
with consecutive nodes adjacent. -/
def IsWalk (G : Graph) (w : List String) (s t : String) : Prop :=
  w.head? = some s ∧ w.getLast? = some t ∧ chainAdj G w = true

instance (G : Graph) (w : List String) (s t : String) : Decidable (IsWalk G w s t) := by
  unfold IsWalk; infer_instance

/-- Search for the least k in [start, start + fuel) satisfying p. -/
def searchDist (p : Nat → Bool) : Nat → Nat → Option Nat
  | _, 0 => none
  | k, Nat.succ fuel => if p k then some k else searchDist p (k + 1) fuel

/-- The unweighted shortest-path distance (edge count) from s to t, none when
t is unreachable from s; the search bound covers every duplicate-free walk. -/
def graphDist (G : Graph) (s t : String) : Option Nat :=
  searchDist (fun k => !(walksBetween G s t k).isEmpty) 0 (2 * G.edges.length + 2)

/-- mindset_streams.shortest_paths, that is
list(nx.all_shortest_paths(G, source, target)) with the default unweighted
method, modelled from the networkx implementation: nx.predecessor raises
NodeNotFound when the source is not in the graph; path reconstruction raises
NetworkXNoPath when the target is not reachable from the source; otherwise
the walks from source to target of minimal edge count are returned. -/
def shortest_paths (G : Graph) (source target : String) :
    Except NxError (List (List String)) :=
  if source ∈ G.nodes then
    match graphDist G source target with
    | some d => .ok (walksBetween G source target d)
    | none => .error .noPath
  else .error .nodeNotFound

/-! ## mindset_streams.py : node_positions -/

/-- layer_nodes[i].append(x): append x to the i-th bucket (the index is
always in range when called from the bucketing loop). -/
def appendAt : List (List String) → Nat → String → List (List String)
  | [], _, _ => []
  | ys :: rest, 0, x => (ys ++ [x]) :: rest
  | ys :: rest, Nat.succ i, x => ys :: appendAt rest i x

/-- The inner node loop of node_positions for one path, carried state
(source_nodes, target_nodes, layer_nodes): counter 0 sends the node to
source_nodes, counters 1 .. num_layers send it to layer_nodes[counter - 1],
any later node goes to target_nodes and the loop breaks. -/
def bucketNodes (num_layers : Nat) :
    Nat → List String → List String × List String × List (List String) →
    List String × List String × List (List String)
  | _, [], st => st
  | counter, node :: rest, (src, tgt, layers) =>
    if counter == 0 then
      bucketNodes num_layers (counter + 1) rest (src ++ [node], tgt, layers)
    else if counter < num_layers + 1 then
      bucketNodes num_layers (counter + 1) rest (src, tgt, appendAt layers (counter - 1) node)
    else
      (src, tgt ++ [node], layers)

/-- The outer path loop of node_positions, starting from empty source and
target lists and num_layers empty layer buckets. -/
def bucketAll (num_layers : Nat) (paths : List (List String)) :
    List String × List String × List (List String) :=
  paths.foldl (fun st path => bucketNodes num_layers 0 path st)
    ([], [], List.replicate num_layers [])

/-- Last-write-wins lookup in the node position dictionary. -/
def posLookup (d : List (String × ℚ × ℚ)) (k : String) : Option (ℚ × ℚ) :=
  (d.reverse.find? fun kv => kv.1 == k).map (·.2)

/-- mindset_streams.node_positions.  num_layers is len(paths[0]) - 2; nodes
are bucketed by the counter loop; each layer is deduplicated (list(set(l))
iterates in an arbitrary order, modelled by List.dedup — every property
proved below is independent of the order within a layer); the source and
target nodes are the first elements of the deduplicated source and target
lists.  The dictionary is the ordered list of writes: source at (0.1, 0.5),
target at (0.9, 0.5), then for layer number i and node number n within a
layer of length len the write (node, (layer_x_positions[i],
1 - (1/(len+1)) * (n+1))) with layer_x_positions[i] = (1/(num_layers+1)) * (i+1).
Coordinates are exact rationals where Python computes floats; the Python
IndexError cases (no collected source or target) are modelled as the empty
dictionary. -/
def node_positions (paths : List (List String)) : List (String × ℚ × ℚ) :=
  let num_layers := (paths.headD []).length - 2
  let st := bucketAll num_layers paths
  let layer_nodes := st.2.2.map List.dedup
  match st.1.dedup, st.2.1.dedup with
  | source_node :: _, target_node :: _ =>
    let layer_x_positions := (List.range num_layers).map
      fun (i : ℕ) => (1 / ((num_layers : ℚ) + 1)) * ((i : ℚ) + 1)
    [(source_node, (1/10, 1/2)), (target_node, (9/10, 1/2))] ++
      (layer_nodes.mapIdx fun layer_number layer =>
        layer.mapIdx fun node_number node =>
          (node, (layer_x_positions.getD layer_number 0,
                  1 - (1 / ((layer.length : ℚ) + 1)) * ((node_number : ℚ) + 1)))).flatten
  | _, _ => []

/-- The multiset of nodes the bucketing loop sends to layer bucket j: the
node at position j + 1 of each path (all paths here have equal length, so the
position is always defined). -/
def layer_of (paths : List (List String)) (j : Nat) : List String :=
  paths.map fun p => p.getD (j + 1) ""

/-- The x coordinate column list of node_positions for numL layers (an
abbreviation naming a subterm of node_positions, used to state the layout
proofs). -/
def layerXs (numL : Nat) : List ℚ :=
  (List.range numL).map fun (i : ℕ) => (1 / ((numL : ℚ) + 1)) * ((i : ℚ) + 1)

/-- The block of dictionary writes node_positions produces for layer j of a
path set with numL layers (an abbreviation naming a subterm of
node_positions, used to state the layout proofs). -/
def layerBlock (paths : List (List String)) (numL : Nat) (j : Nat) :
    List (String × ℚ × ℚ) :=
  ((layer_of paths j).dedup).mapIdx fun r node =>
    (node, ((layerXs numL).getD j 0,
      1 - (1 / (((layer_of paths j).dedup.length : ℚ) + 1)) * ((r : ℚ) + 1)))

/-! ## mindset_streams.py : edge_colours -/

/-- Python runtime error used by the edge_colours model. -/
inductive PyError where
  | unboundLocal
deriving DecidableEq

/-- The loop of mindset_streams.edge_colours with the persistent local
variable colour carried explicitly (none while it has never been assigned):
a recognised edge valence assigns colour, an unrecognised one leaves it
unchanged; reading it while still unassigned raises UnboundLocalError. -/
def edge_colours_loop (colour : Option String) :
    List (String × String × String) → Except PyError (List ((String × String) × String))
  | [] => .ok []
  | (s, t, v) :: rest =>
    let colour1 :=
      if v == "positive" then some "tab:blue"
      else if v == "neutral" then some "tab:grey"
      else if v == "negative" then some "tab:red"
      else colour
    match colour1 with
    | none => .error .unboundLocal
    | some c => (edge_colours_loop (some c) rest).map fun d => ((s, t), c) :: d

/-- mindset_streams.edge_colours over the edge triples
(source, target, edge valence) of a graph. -/
def edge_colours (edges : List (String × String × String)) :
    Except PyError (List ((String × String) × String)) :=
  edge_colours_loop none edges

/-! ## mindset_streams.py : stream_graph statistics -/

/-- The statistics loop of stream_graph (lines 364 to 373): one row per
sub-path holding the path, its path_type against the subgraph valences, and
its path_betweenness against the base graph rounded to 4 digits. -/
def path_stats (sub_paths : List (List String)) (valence : String → Option String)
    (betweenness_dict : List ((String × String) × ℚ)) :
    List (List String × String × ℚ) :=
  sub_paths.map fun path =>
    (path, path_type path valence, round4 (path_betweenness path betweenness_dict))

/-! ## Concrete fixtures used by the end-to-end scenario and by witnesses -/

/-- The association input of the end-to-end scenario of section 8. -/
def objsC5 : List (List (String × JVal)) :=
  [[("w1", .str "cat"), ("w2", .str "dog")], [("w1", .str "dog"), ("w2", .str "wolf")]]

/-- The valence table of the end-to-end scenario. -/
def vdictC5 : List (String × String) :=
  [("cat", "positive"), ("dog", "neutral"), ("wolf", "negative")]

/-- The sentiment-attached dataframe of the end-to-end scenario. -/
def dfC5 : List Row := attach_sentiment [("cat", "dog"), ("dog", "wolf")] vdictC5

/-- The base graph of the end-to-end scenario. -/
def baseC5 : Graph := create_base_graph dfC5

/-- The stream subgraph of the end-to-end scenario (nx.Graph copy of the
bridge graph of the base shortest paths, self loops removed). -/
def subC5 : Graph := remove_selfloops (bridge_graph baseC5 [["cat", "dog", "wolf"]])

/-- A diamond graph with two distinct shortest a-to-d paths, used as a
concrete witness input for the shortest-path theorem. -/
def Gdiamond : Graph :=
  ⟨["a", "b", "c", "d"], [("a", "b"), ("b", "d"), ("a", "c"), ("c", "d")]⟩

/-! # Theorems -/

/-! ## C2 : the edge-valence table -/

/-- C2: over the nine combinations of the three valence categories,
edge_valence agrees with the fixed symmetric table of section 4.2 (pairs
with a neutral endpoint give neutral, equal non-neutral endpoints give that
valence, positive against negative gives conflicting), and the derivation is
symmetric in its two arguments. -/
theorem edge_valence_matches_table (v1 v2 : String)
    (h1 : v1 ∈ ["neutral", "positive", "negative"])
    (h2 : v2 ∈ ["neutral", "positive", "negative"]) :
    edge_valence v1 v2 = valence_table v1 v2 ∧ edge_valence v1 v2 = edge_valence v2 v1 := by
  simp only [List.mem_cons, List.not_mem_nil, or_false] at h1 h2
  rcases h1 with h1 | h1 | h1 <;> rcases h2 with h2 | h2 | h2 <;> subst h1 <;> subst h2 <;> decide

/-- Witness for C2 at the pair (positive, negative). -/
theorem edge_valence_matches_table_witness :
    edge_valence "positive" "negative" = valence_table "positive" "negative" ∧
      edge_valence "positive" "negative" = edge_valence "negative" "positive" :=
  edge_valence_matches_table "positive" "negative" (by decide) (by decide)

/-! ## C1 : the conflicting-path test -/

/-- C1: evaluation of path_type at a failing input.  On the two node path
alpha-beta whose valences are negative and positive, the claimed (and spec
mandated) classification is conflicting path, because a negative valence and
a positive valence both occur along the path; the source instead tests
whether the literal string positive occurs among the raw node names and so
returns mixed path.  The second conjunct evaluates the spec-side
classifier path_type_spec at the same input. -/
theorem path_type_conflicting_bug :
    path_type ["alpha", "beta"]
        (fun n => if n = "alpha" then some "negative"
                  else if n = "beta" then some "positive" else none) = "mixed path" ∧
      path_type_spec ["alpha", "beta"]
        (fun n => if n = "alpha" then some "negative"
                  else if n = "beta" then some "positive" else none) = "conflicting path" := by
  decide

/-! ## C6 : fail-fast loading -/

/-- C8: a row whose first valence entry is not one of the three categories
receives the edge valence "0" (in either argument position), a word absent
from the valence dictionary receives the valence string "nan", a "nan"
valence likewise yields edge valence "0", and "0" is not one of the table
output categories. -/
theorem edge_valence_default_zero (v1 v2 w : String) (vdict : List (String × String))
    (h1 : v1 ∉ ["neutral", "positive", "negative"])
    (hw : dictLookup vdict w = none) :
    edge_valence v1 v2 = "0" ∧ edge_valence v2 v1 = "0" ∧
      attach_valence vdict w = "nan" ∧ edge_valence "nan" v2 = "0" ∧
      "0" ∉ ["neutral", "positive", "negative", "conflicting"] := by
  simp only [List.mem_cons, List.not_mem_nil, or_false, not_or] at h1
  obtain ⟨hn, hp, hg⟩ := h1
  refine ⟨?_, ?_, ?_, ?_, by decide⟩
  · simp [edge_valence, hn, hp, hg]
  · simp [edge_valence, hn, hp, hg]
  · simp [attach_valence, hw]
  · simp [edge_valence]

/-- Witness for C8: the valence string "nan" produced for the word fox,
absent from the valence dictionary of the end-to-end fixture, drives
edge_valence to "0". -/
theorem edge_valence_default_zero_witness :
    edge_valence "nan" "positive" = "0" ∧ edge_valence "positive" "nan" = "0" ∧
      attach_valence vdictC5 "fox" = "nan" ∧ edge_valence "nan" "positive" = "0" ∧
      "0" ∉ ["neutral", "positive", "negative", "conflicting"] :=
  edge_valence_default_zero "nan" "positive" "fox" vdictC5 (by decide) (by decide)

/-! ## C9 : edge_colours is partial -/

/-- Totality of the edge_colours loop under the recognised-valence
precondition, for any state of the colour variable: every edge receives one
of the three colours. -/
theorem edge_colours_loop_total (edges : List (String × String × String)) :
    ∀ c : Option String, (∀ e ∈ edges, e.2.2 ∈ ["positive", "neutral", "negative"]) →
      ∃ out, edge_colours_loop c edges = .ok out ∧
        ∀ ent ∈ out, ent.2 ∈ ["tab:blue", "tab:grey", "tab:red"] := by
  induction edges with
  | nil => exact fun c _ => ⟨[], rfl, by simp⟩
  | cons e rest ih =>
    intro c h
    obtain ⟨s, t, v⟩ := e
    have hv : v ∈ ["positive", "neutral", "negative"] := h (s, t, v) (by simp)
    have hrest : ∀ e2 ∈ rest, e2.2.2 ∈ ["positive", "neutral", "negative"] :=
      fun e2 h2 => h e2 (by simp [h2])
    simp only [List.mem_cons, List.not_mem_nil, or_false] at hv
    rcases hv with hv | hv | hv <;> subst hv
    · obtain ⟨out, hout, hcol⟩ := ih (some "tab:blue") hrest
      refine ⟨((s, t), "tab:blue") :: out, ?_, ?_⟩
      · simp [edge_colours_loop, hout, Except.map]
      · intro ent hent
        rcases List.mem_cons.mp hent with h0 | h0
        · simp [h0]
        · exact hcol ent h0
    · obtain ⟨out, hout, hcol⟩ := ih (some "tab:grey") hrest
      refine ⟨((s, t), "tab:grey") :: out, ?_, ?_⟩
      · simp [edge_colours_loop, hout, Except.map]
      · intro ent hent
        rcases List.mem_cons.mp hent with h0 | h0
        · simp [h0]
        · exact hcol ent h0
    · obtain ⟨out, hout, hcol⟩ := ih (some "tab:red") hrest
      refine ⟨((s, t), "tab:red") :: out, ?_, ?_⟩
      · simp [edge_colours_loop, hout, Except.map]
      · intro ent hent
        rcases List.mem_cons.mp hent with h0 | h0
        · simp [h0]
        · exact hcol ent h0

/-- C9: edge_colours assigns colours only from the three recognised
valences: under the precondition that every edge valence is positive,
neutral or negative the function succeeds and every edge gets one of the
three colours; a graph whose first enumerated edge carries the valence
conflicting (a value edge_valence itself produces) makes the function read
the never-assigned colour variable and fail; and an edge with an
unrecognised valence that is met after some recognised edge silently
receives the colour of the previously processed edge. -/
theorem edge_colours_total_only_on_recognised (edges : List (String × String × String))
    (h : ∀ e ∈ edges, e.2.2 ∈ ["positive", "neutral", "negative"]) :
    (∃ out, edge_colours edges = .ok out ∧
        ∀ ent ∈ out, ent.2 ∈ ["tab:blue", "tab:grey", "tab:red"]) ∧
      edge_colours [("a", "b", "conflicting")] = .error .unboundLocal ∧
      edge_colours [("a", "b", "positive"), ("b", "c", "conflicting")] =
        .ok [(("a", "b"), "tab:blue"), (("b", "c"), "tab:blue")] ∧
      (∀ s t v c rest, v ∉ ["positive", "neutral", "negative"] →
        edge_colours_loop (some c) ((s, t, v) :: rest) =
          (edge_colours_loop (some c) rest).map fun d => ((s, t), c) :: d) := by
  refine ⟨edge_colours_loop_total edges none h, by decide, by decide, ?_⟩
  intro s t v c rest hv
  simp only [List.mem_cons, List.not_mem_nil, or_false, not_or] at hv
  obtain ⟨h1, h2, h3⟩ := hv
  simp [edge_colours_loop, h1, h2, h3]

/-- Witness for C9 on a two-edge graph with recognised valences. -/
theorem edge_colours_total_only_on_recognised_witness :
    (∃ out, edge_colours [("a", "b", "positive"), ("b", "c", "negative")] = .ok out ∧
        ∀ ent ∈ out, ent.2 ∈ ["tab:blue", "tab:grey", "tab:red"]) ∧
      edge_colours [("a", "b", "conflicting")] = .error .unboundLocal ∧
      edge_colours [("a", "b", "positive"), ("b", "c", "conflicting")] =
        .ok [(("a", "b"), "tab:blue"), (("b", "c"), "tab:blue")] ∧
      (∀ s t v c rest, v ∉ ["positive", "neutral", "negative"] →
        edge_colours_loop (some c) ((s, t, v) :: rest) =
          (edge_colours_loop (some c) rest).map fun d => ((s, t), c) :: d) :=
  edge_colours_total_only_on_recognised
    [("a", "b", "positive"), ("b", "c", "negative")] (by decide)

/-! ## C7 and C10 : path_betweenness -/

/-- Zipping a list against a one-longer list and dropping the last pair
ignores the final element of the longer list. -/
theorem zip_snoc_dropLast (l2 : List String) :
    ∀ (l1 : List String) (x : String), l1.length = l2.length + 1 →
      (l1.zip (l2 ++ [x])).dropLast = l1.zip l2 := by
  induction l2 with
  | nil =>
    intro l1 x h
    match l1, h with
    | [u], _ => rfl
  | cons c cs ih =>
    intro l1 x h
    match l1, h with
    | u :: us, h =>
      have hus : us.length = cs.length + 1 := by simpa using h
      have hne : us.zip (cs ++ [x]) ≠ [] := by
        have hzl : (us.zip (cs ++ [x])).length = cs.length + 1 := by
          simp [List.length_zip, hus]
        intro hcon
        rw [hcon] at hzl
        simp at hzl
      calc ((u :: us).zip ((c :: cs) ++ [x])).dropLast
          = (u, c) :: (us.zip (cs ++ [x])).dropLast := by
            simp [List.zip_cons_cons, List.dropLast_cons_of_ne_nil hne]
        _ = (u, c) :: us.zip cs := by rw [ih us x hus]
        _ = (u :: us).zip (c :: cs) := rfl

/-- The python pair construction of path_betweenness produces exactly the
consecutive node pairs of the path. -/
theorem tuple_pairs_eq_zip_tail (p : List String) : tuple_pairs p = p.zip p.tail := by
  cases p with
  | nil => rfl
  | cons a l =>
    have h := zip_snoc_dropLast l (a :: l) a (by simp)
    simpa [tuple_pairs] using h

/-- path_betweenness is the sum, over the consecutive node pairs of the
path, of the betweenness of the pair looked up in either orientation with
default 0. -/
theorem path_betweenness_eq_sum (path : List String)
    (D : List ((String × String) × ℚ)) :
    path_betweenness path D =
      ((List.range (path.length - 1)).map fun i =>
        edgeValD D (path.getD i "") (path.getD (i + 1) "")).sum := by
  rw [path_betweenness, tuple_pairs_eq_zip_tail]
  induction path with
  | nil => simp
  | cons a l ih =>
    cases l with
    | nil => simp
    | cons b r =>
      have hlen : (a :: b :: r : List String).length - 1 = (b :: r : List String).length - 1 + 1 := by
        simp
      rw [hlen, List.range_succ_eq_map]
      simp only [List.zip_cons_cons, List.tail_cons, List.map_cons, List.map_map, List.sum_cons]
      have htail : ((List.range ((b :: r : List String).length - 1)).map
          ((fun i => edgeValD D ((a :: b :: r : List String).getD i "")
            ((a :: b :: r : List String).getD (i + 1) "")) ∘ Nat.succ)).sum =
          ((List.range ((b :: r : List String).length - 1)).map fun i =>
            edgeValD D ((b :: r : List String).getD i "") ((b :: r : List String).getD (i + 1) "")).sum := by
        congr 1
      rw [htail, ← ih]
      simp only [List.tail_cons]
      rw [List.filterMap_cons]
      cases h1 : bLookup D (a, b) with
      | some q => simp [edgeValD, h1]
      | none =>
        cases h2 : bLookup D (b, a) with
        | some q => simp [edgeValD, h1, h2]
        | none => simp [edgeValD, h1, h2]

/-- C7: path_betweenness equals the sum over the consecutive node pairs of
the path of the edge-betweenness value of that pair, looked up as (u, v) and,
failing that, as (v, u); and every row of the path statistics table reports
exactly this sum rounded to 4 decimal digits. -/
theorem path_betweenness_is_consecutive_sum (path : List String)
    (sub_paths : List (List String)) (valence : String → Option String)
    (D : List ((String × String) × ℚ)) :
    path_betweenness path D =
        ((List.range (path.length - 1)).map fun i =>
          edgeValD D (path.getD i "") (path.getD (i + 1) "")).sum ∧
      ∀ row ∈ path_stats sub_paths valence D,
        row.2.2 = round4 (path_betweenness row.1 D) := by
  refine ⟨path_betweenness_eq_sum path D, ?_⟩
  intro row hrow
  simp only [path_stats, List.mem_map] at hrow
  obtain ⟨p, _, rfl⟩ := hrow
  rfl

/-- Witness for C7 on a concrete two-edge path whose second edge is stored
in reversed orientation in the dictionary. -/
theorem path_betweenness_is_consecutive_sum_witness :
    path_betweenness ["x", "y", "z"] [(("x", "y"), (1/4 : ℚ)), (("z", "y"), (1/2 : ℚ))] =
        ((List.range ((["x", "y", "z"] : List String).length - 1)).map fun i =>
          edgeValD [(("x", "y"), (1/4 : ℚ)), (("z", "y"), (1/2 : ℚ))]
            ((["x", "y", "z"] : List String).getD i "")
            ((["x", "y", "z"] : List String).getD (i + 1) "")).sum ∧
      (["x", "y", "z"],
          path_type ["x", "y", "z"] (fun _ => none),
          round4 (path_betweenness ["x", "y", "z"]
            [(("x", "y"), (1/4 : ℚ)), (("z", "y"), (1/2 : ℚ))])).2.2 =
        round4 (path_betweenness ["x", "y", "z"]
          [(("x", "y"), (1/4 : ℚ)), (("z", "y"), (1/2 : ℚ))]) := by
  have h := path_betweenness_is_consecutive_sum ["x", "y", "z"] [["x", "y", "z"]]
    (fun _ => none) [(("x", "y"), (1/4 : ℚ)), (("z", "y"), (1/2 : ℚ))]
  exact ⟨h.1, h.2 _ (by simp [path_stats])⟩

/-- C10: a consecutive pair absent from the betweenness dictionary in both
orientations contributes 0, and path_betweenness is total: it equals the sum
of the dual-lookup-with-default-0 values over the consecutive pairs of any
node list, raising no lookup error. -/
theorem path_betweenness_skips_missing_pairs (path : List String)
    (D : List ((String × String) × ℚ)) (u v : String)
    (h1 : bLookup D (u, v) = none) (h2 : bLookup D (v, u) = none) :
    edgeValD D u v = 0 ∧
      path_betweenness path D =
        ((List.range (path.length - 1)).map fun i =>
          edgeValD D (path.getD i "") (path.getD (i + 1) "")).sum :=
  ⟨by simp [edgeValD, h1, h2], path_betweenness_eq_sum path D⟩

/-- Witness for C10: the pair (y, z) is in the dictionary in neither
orientation, and the path through it still gets a total. -/
theorem path_betweenness_skips_missing_pairs_witness :
    edgeValD [(("x", "y"), (1/4 : ℚ))] "y" "z" = 0 ∧
      path_betweenness ["x", "y", "z"] [(("x", "y"), (1/4 : ℚ))] =
        ((List.range ((["x", "y", "z"] : List String).length - 1)).map fun i =>
          edgeValD [(("x", "y"), (1/4 : ℚ))]
            ((["x", "y", "z"] : List String).getD i "")
            ((["x", "y", "z"] : List String).getD (i + 1) "")).sum :=
  path_betweenness_skips_missing_pairs ["x", "y", "z"] [(("x", "y"), (1/4 : ℚ))]
    "y" "z" (by decide) (by decide)

/-! ## C5 : the end-to-end scenario -/

/-- C5: on the association records cat-dog and dog-wolf with valences
cat positive, dog neutral, wolf negative, the load succeeds, the base graph
has exactly one shortest cat-to-wolf path, namely cat-dog-wolf, the stream
subgraph built from it again yields exactly that single shortest path, and
path_type classifies it against the subgraph valences as mixed path. -/
theorem stream_graph_end_to_end :
    file_to_df objsC5 = .ok [["cat", "dog"], ["dog", "wolf"]] ∧
      dfC5 = [⟨"cat", "dog", "positive", "neutral"⟩, ⟨"dog", "wolf", "neutral", "negative"⟩] ∧
      shortest_paths baseC5 "cat" "wolf" = .ok [["cat", "dog", "wolf"]] ∧
      shortest_paths subC5 "cat" "wolf" = .ok [["cat", "dog", "wolf"]] ∧
      path_type ["cat", "dog", "wolf"] (subgraph_valence subC5 dfC5) = "mixed path" := by
  decide

/-! ## C3 : shortest_paths -/

/-- Both endpoints of an adjacent pair occur in the endpoint list. -/
theorem mem_endpointsList_of_adj {G : Graph} {u v : String} (h : adj G u v = true) :
    u ∈ endpointsList G ∧ v ∈ endpointsList G := by
  simp only [adj, List.any_eq_true, Bool.or_eq_true, Bool.and_eq_true, beq_iff_eq] at h
  obtain ⟨e, he, h1⟩ := h
  rcases h1 with ⟨h1, h2⟩ | ⟨h1, h2⟩ <;> subst h1 <;> subst h2 <;>
    exact ⟨List.mem_flatMap.mpr ⟨e, he, by simp⟩, List.mem_flatMap.mpr ⟨e, he, by simp⟩⟩

/-- Membership in the neighbour list is adjacency. -/
theorem mem_neighbors {G : Graph} {u v : String} :
    v ∈ neighbors G u ↔ adj G u v = true := by
  simp only [neighbors, List.mem_filter, List.mem_dedup]
  exact ⟨fun h => h.2, fun h => ⟨(mem_endpointsList_of_adj h).2, h⟩⟩

/-- Unfolding of chainAdj at a two-element head. -/
theorem chainAdj_cons_cons (G : Graph) (u v : String) (rest : List String) :
    chainAdj G (u :: v :: rest) = (adj G u v && chainAdj G (v :: rest)) := rfl

/-- A one-node walk characterisation. -/
theorem isWalk_singleton {G : Graph} {x s t : String} :
    IsWalk G [x] s t ↔ s = x ∧ t = x := by
  constructor
  · rintro ⟨h1, h2, _⟩
    simp only [List.head?_cons, Option.some.injEq] at h1
    simp only [List.getLast?_singleton, Option.some.injEq] at h2
    exact ⟨h1.symm, h2.symm⟩
  · rintro ⟨rfl, rfl⟩
    exact ⟨rfl, rfl, rfl⟩

/-- A two-or-more-node walk characterisation. -/
theorem isWalk_cons_cons {G : Graph} {u v s t : String} {rest : List String} :
    IsWalk G (u :: v :: rest) s t ↔ s = u ∧ adj G u v = true ∧ IsWalk G (v :: rest) v t := by
  constructor
  · rintro ⟨h1, h2, h3⟩
    simp only [List.head?_cons, Option.some.injEq] at h1
    rw [List.getLast?_cons_cons] at h2
    rw [chainAdj_cons_cons, Bool.and_eq_true] at h3
    exact ⟨h1.symm, h3.1, rfl, h2, h3.2⟩
  · rintro ⟨rfl, hadj, _, hlast, hchain⟩
    refine ⟨rfl, ?_, ?_⟩
    · rw [List.getLast?_cons_cons]
      exact hlast
    · rw [chainAdj_cons_cons, Bool.and_eq_true]
      exact ⟨hadj, hchain⟩

/-- Every nonempty walk has positive length. -/
theorem walk_length_pos {G : Graph} {w : List String} {s t : String}
    (hw : IsWalk G w s t) : 1 ≤ w.length := by
  cases w with
  | nil => exact absurd hw.1 (by simp)
  | cons a l => simp

/-- The walk enumeration walksBetween G u t k holds exactly the walks from u
to t with k edges. -/
theorem mem_walksBetween {G : Graph} {t : String} :
    ∀ (k : Nat) (u : String) (w : List String),
      w ∈ walksBetween G u t k ↔ IsWalk G w u t ∧ w.length = k + 1 := by
  intro k
  induction k with
  | zero =>
    intro u w
    rw [walksBetween]
    by_cases h : u = t
    · subst h
      simp only [beq_self_eq_true, if_true, List.mem_singleton]
      constructor
      · rintro rfl
        exact ⟨isWalk_singleton.mpr ⟨rfl, rfl⟩, rfl⟩
      · rintro ⟨hw, hl⟩
        cases w with
        | nil => simp at hl
        | cons a l =>
          cases l with
          | nil =>
            obtain ⟨h1, _⟩ := isWalk_singleton.mp hw
            rw [h1]
          | cons b r => simp at hl
    · rw [if_neg (by simpa using h)]
      simp only [List.not_mem_nil, false_iff, not_and]
      intro hw hl
      cases w with
      | nil => simp at hl
      | cons a l =>
        cases l with
        | nil =>
          obtain ⟨h1, h2⟩ := isWalk_singleton.mp hw
          exact h (h1.trans h2.symm)
        | cons b r => simp at hl
  | succ k ih =>
    intro u w
    rw [walksBetween]
    simp only [List.mem_flatMap, List.mem_map]
    constructor
    · rintro ⟨v, hv, w2, hw2, rfl⟩
      obtain ⟨hwalk, hlen⟩ := (ih v w2).mp hw2
      have hadj : adj G u v = true := mem_neighbors.mp hv
      cases w2 with
      | nil => simp at hlen
      | cons v2 rest =>
        have hv2 : v2 = v := by
          have := hwalk.1
          simpa using this
        subst hv2
        exact ⟨isWalk_cons_cons.mpr ⟨rfl, hadj, hwalk⟩, by simpa using hlen⟩
    · rintro ⟨hwalk, hlen⟩
      cases w with
      | nil => simp at hlen
      | cons u2 l =>
        cases l with
        | nil => simp at hlen
        | cons v2 rest =>
          obtain ⟨h1, hadj, hwalk2⟩ := isWalk_cons_cons.mp hwalk
          subst h1
          exact ⟨v2, mem_neighbors.mpr hadj,
            ⟨v2 :: rest, (ih v2 _).mpr ⟨hwalk2, by simpa using hlen⟩, rfl⟩⟩

/-- A successful bounded search yields the least index satisfying the
predicate (within the searched window). -/
theorem searchDist_some (p : Nat → Bool) :
    ∀ (fuel k d : Nat), searchDist p k fuel = some d →
      p d = true ∧ k ≤ d ∧ ∀ j, k ≤ j → j < d → p j = false := by
  intro fuel
  induction fuel with
  | zero =>
    intro k d h
    simp [searchDist] at h
  | succ fuel ih =>
    intro k d h
    rw [searchDist] at h
    by_cases hp : p k
    · rw [if_pos hp] at h
      obtain rfl : k = d := by simpa using h
      exact ⟨hp, le_refl _, fun j h1 h2 => absurd h2 (by omega)⟩
    · rw [if_neg hp] at h
      obtain ⟨h1, h2, h3⟩ := ih (k + 1) d h
      refine ⟨h1, by omega, fun j hj1 hj2 => ?_⟩
      by_cases hjk : j = k
      · subst hjk
        rw [Bool.not_eq_true] at hp
        exact hp
      · exact h3 j (by omega) hj2

/-- A failed bounded search means the predicate fails on the whole window. -/
theorem searchDist_none (p : Nat → Bool) :
    ∀ (fuel k : Nat), searchDist p k fuel = none →
      ∀ j, k ≤ j → j < k + fuel → p j = false := by
  intro fuel
  induction fuel with
  | zero =>
    intro k _ j h1 h2
    omega
  | succ fuel ih =>
    intro k h j h1 h2
    rw [searchDist] at h
    by_cases hp : p k
    · rw [if_pos hp] at h
      exact absurd h (by simp)
    · rw [if_neg hp] at h
      by_cases hjk : j = k
      · subst hjk
        rw [Bool.not_eq_true] at hp
        exact hp
      · exact ih (k + 1) h j (by omega) (by omega)

/-- The bounded search succeeds when the predicate holds somewhere in the
window. -/
theorem searchDist_finds (p : Nat → Bool) :
    ∀ (fuel k m : Nat), k ≤ m → m < k + fuel → p m = true →
      ∃ d, searchDist p k fuel = some d ∧ d ≤ m := by
  intro fuel
  induction fuel with
  | zero =>
    intro k m h1 h2
    omega
  | succ fuel ih =>
    intro k m h1 h2 hm
    by_cases hp : p k
    · exact ⟨k, by rw [searchDist, if_pos hp], h1⟩
    · have hne : k ≠ m := by
        intro hcon
        rw [hcon] at hp
        exact hp hm
      obtain ⟨d, hd, hdm⟩ := ih (k + 1) m (by omega) (by omega) hm
      exact ⟨d, by rw [searchDist, if_neg hp]; exact hd, hdm⟩

/-- A list that is not duplicate free splits around a repeated element. -/
theorem exists_dup_split {l : List String} (h : ¬ l.Nodup) :
    ∃ a x b c, l = a ++ x :: b ++ x :: c := by
  induction l with
  | nil => exact absurd List.nodup_nil h
  | cons y ys ih =>
    by_cases hy : y ∈ ys
    · obtain ⟨s, t, rfl⟩ := List.append_of_mem hy
      exact ⟨[], y, s, t, rfl⟩
    · have hys : ¬ ys.Nodup := fun hn => h (List.nodup_cons.mpr ⟨hy, hn⟩)
      obtain ⟨a, x, b, c, rfl⟩ := ih hys
      exact ⟨y :: a, x, b, c, rfl⟩

/-- chainAdj as a chain of adjacency facts. -/
theorem chainAdj_iff_chain {G : Graph} : ∀ {l : List String},
    chainAdj G l = true ↔ List.Chain' (fun u v => adj G u v = true) l := by
  intro l
  induction l with
  | nil => simp [chainAdj]
  | cons x l ih =>
    cases l with
    | nil => simp [chainAdj]
    | cons y r =>
      rw [chainAdj_cons_cons, Bool.and_eq_true, List.chain'_cons]
      exact and_congr Iff.rfl ih

/-- Cutting the segment between two occurrences of a repeated node keeps a
walk a walk and strictly shortens it. -/
theorem walk_cut {G : Graph} {s t x : String} {a b c : List String}
    (hw : IsWalk G (a ++ x :: b ++ x :: c) s t) :
    IsWalk G (a ++ x :: c) s t ∧
      (a ++ x :: c).length < (a ++ x :: b ++ x :: c).length := by
  obtain ⟨h1, h2, h3⟩ := hw
  rw [chainAdj_iff_chain] at h3
  have hsplit : a ++ x :: b ++ x :: c = a ++ ((x :: b) ++ x :: c) := by simp
  rw [hsplit] at h3
  rw [List.chain'_append] at h3
  obtain ⟨ha, hrest, hlink⟩ := h3
  rw [List.chain'_append] at hrest
  obtain ⟨_, hxc, _⟩ := hrest
  refine ⟨⟨?_, ?_, ?_⟩, by simp; omega⟩
  · cases a with
    | nil => simpa using h1
    | cons a0 a1 => simpa using h1
  · rw [List.getLast?_append_cons] at h2 ⊢
    exact h2
  · rw [chainAdj_iff_chain, List.chain'_append]
    refine ⟨ha, hxc, ?_⟩
    intro p hp q hq
    refine hlink p hp q ?_
    simpa using hq

/-- A walk with a duplicate node strictly shortens to a walk with the same
endpoints. -/
theorem walk_drop_dup {G : Graph} {s t : String} {w : List String}
    (hw : IsWalk G w s t) (hd : ¬ w.Nodup) :
    ∃ w2, IsWalk G w2 s t ∧ w2.length < w.length := by
  obtain ⟨a, x, b, c, rfl⟩ := exists_dup_split hd
  obtain ⟨hwalk, hlen⟩ := walk_cut hw
  exact ⟨a ++ x :: c, hwalk, hlen⟩

/-- Every walk shortens to a duplicate-free walk with the same endpoints. -/
theorem walk_to_nodup {G : Graph} {s t : String} :
    ∀ (n : Nat) (w : List String), w.length ≤ n → IsWalk G w s t →
      ∃ w2, IsWalk G w2 s t ∧ w2.Nodup ∧ w2.length ≤ w.length := by
  intro n
  induction n with
  | zero =>
    intro w hn hw
    have := walk_length_pos hw
    omega
  | succ n ih =>
    intro w hn hw
    by_cases hd : w.Nodup
    · exact ⟨w, hw, hd, le_refl _⟩
    · obtain ⟨w2, hw2, hlt⟩ := walk_drop_dup hw hd
      obtain ⟨w3, hw3, hnd, hle⟩ := ih w2 (by omega) hw2
      exact ⟨w3, hw3, hnd, by omega⟩

/-- The endpoint list has two entries per edge. -/
theorem endpointsList_length (G : Graph) :
    (endpointsList G).length = 2 * G.edges.length := by
  suffices h : ∀ es : List (String × String),
      (es.flatMap fun e => [e.1, e.2]).length = 2 * es.length from h G.edges
  intro es
  induction es with
  | nil => rfl
  | cons e es ih =>
    rw [List.flatMap_cons]
    simp only [List.length_append, List.length_cons, ih]
    simp
    omega

/-- Every node of a two-or-more-node walk is an edge endpoint. -/
theorem walk_subset_endpoints {G : Graph} :
    ∀ (w : List String) (s t : String), IsWalk G w s t → 2 ≤ w.length →
      ∀ x ∈ w, x ∈ endpointsList G := by
  intro w
  induction w with
  | nil =>
    intro s t _ _ x hx
    simp at hx
  | cons u l ih =>
    intro s t hw hl x hx
    cases l with
    | nil => simp at hl
    | cons v rest =>
      obtain ⟨_, hadj, hwalk2⟩ := isWalk_cons_cons.mp hw
      rcases List.mem_cons.mp hx with rfl | hx2
      · exact (mem_endpointsList_of_adj hadj).1
      · cases rest with
        | nil =>
          have hxv : x = v := by simpa using hx2
          subst hxv
          exact (mem_endpointsList_of_adj hadj).2
        | cons r0 rr =>
          exact ih v t hwalk2 (by simp) x hx2

/-- A duplicate-free walk is no longer than the search bound. -/
theorem nodup_walk_length_le {G : Graph} {w : List String} {s t : String}
    (hw : IsWalk G w s t) (hd : w.Nodup) :
    w.length ≤ 2 * G.edges.length + 1 := by
  rcases Nat.lt_or_ge w.length 2 with h2 | h2
  · omega
  · have hsub : w ⊆ (endpointsList G).dedup := fun x hx =>
      List.mem_dedup.mpr (walk_subset_endpoints w s t hw h2 x hx)
    have hsp : List.Subperm w ((endpointsList G).dedup) := List.Nodup.subperm hd hsub
    have hl1 := hsp.length_le
    have hl2 : (endpointsList G).dedup.length ≤ (endpointsList G).length :=
      (List.dedup_sublist _).length_le
    have hl3 := endpointsList_length G
    omega

/-- A computed distance is attained by a walk and bounds every walk from
below. -/
theorem graphDist_some_spec {G : Graph} {s t : String} {d : Nat}
    (h : graphDist G s t = some d) :
    (∃ w, IsWalk G w s t ∧ w.length = d + 1) ∧
      ∀ w, IsWalk G w s t → d + 1 ≤ w.length := by
  obtain ⟨hpd, _, hmin⟩ := searchDist_some _ _ _ _ h
  constructor
  · have hne : walksBetween G s t d ≠ [] := by
      intro hcon
      rw [hcon] at hpd
      simp at hpd
    obtain ⟨w, hw⟩ := List.exists_mem_of_ne_nil _ hne
    obtain ⟨hwalk, hlen⟩ := (mem_walksBetween d s w).mp hw
    exact ⟨w, hwalk, hlen⟩
  · intro w hw
    obtain ⟨w2, hw2, hnd, hle⟩ := walk_to_nodup w.length w (le_refl _) hw
    have hpos : 1 ≤ w2.length := walk_length_pos hw2
    have hmem : w2 ∈ walksBetween G s t (w2.length - 1) :=
      (mem_walksBetween _ _ _).mpr ⟨hw2, by omega⟩
    by_cases hlt : w2.length - 1 < d
    · have hfalse := hmin (w2.length - 1) (by omega) hlt
      have hemp : (walksBetween G s t (w2.length - 1)).isEmpty = true := by
        simpa using hfalse
      rw [List.isEmpty_iff] at hemp
      rw [hemp] at hmem
      simp at hmem
    · omega

/-- An exhausted search means no walk at all joins the two nodes. -/
theorem graphDist_none_spec {G : Graph} {s t : String}
    (h : graphDist G s t = none) : ∀ w, ¬ IsWalk G w s t := by
  intro w hw
  obtain ⟨w2, hw2, hnd, _⟩ := walk_to_nodup w.length w (le_refl _) hw
  have hpos : 1 ≤ w2.length := walk_length_pos hw2
  have hbound := nodup_walk_length_le hw2 hnd
  have hmem : w2 ∈ walksBetween G s t (w2.length - 1) :=
    (mem_walksBetween _ _ _).mpr ⟨hw2, by omega⟩
  have hfalse := searchDist_none _ _ _ h (w2.length - 1) (by omega) (by omega)
  have hemp : (walksBetween G s t (w2.length - 1)).isEmpty = true := by
    simpa using hfalse
  rw [List.isEmpty_iff] at hemp
  rw [hemp] at hmem
  simp at hmem

/-- C3 as amended: when the source is absent from the graph the call fails
with the node-not-found condition; when the source is present but no walk
reaches the target (in particular when the target is absent from the graph)
it fails with the no-path condition; and when source and target are present
and connected it returns exactly the set of ALL source-to-target paths whose
length is minimal: every returned path is a duplicate-free walk of minimum
length, and every such path is returned. -/
theorem shortest_paths_spec (G : Graph) (s t : String) :
    (s ∉ G.nodes → shortest_paths G s t = .error .nodeNotFound) ∧
    (s ∈ G.nodes → (∀ w, ¬ IsWalk G w s t) → shortest_paths G s t = .error .noPath) ∧
    (s ∈ G.nodes → ∀ w0, IsWalk G w0 s t →
      ∃ ps, shortest_paths G s t = .ok ps ∧
        ∀ p, p ∈ ps ↔ IsWalk G p s t ∧ p.Nodup ∧
          ∀ q, IsWalk G q s t → p.length ≤ q.length) := by
  refine ⟨?_, ?_, ?_⟩
  · intro hs
    simp [shortest_paths, hs]
  · intro hs hnw
    rw [shortest_paths, if_pos hs]
    cases hgd : graphDist G s t with
    | some d =>
      obtain ⟨⟨w, hw, _⟩, _⟩ := graphDist_some_spec hgd
      exact absurd hw (hnw w)
    | none => rfl
  · intro hs w0 hw0
    have hsome : ∃ d, graphDist G s t = some d := by
      cases hgd : graphDist G s t with
      | some d => exact ⟨d, rfl⟩
      | none => exact absurd hw0 (graphDist_none_spec hgd w0)
    obtain ⟨d, hgd⟩ := hsome
    obtain ⟨⟨wd, hwd, hwdlen⟩, hmin⟩ := graphDist_some_spec hgd
    refine ⟨walksBetween G s t d, by rw [shortest_paths, if_pos hs, hgd], ?_⟩
    intro p
    constructor
    · intro hp
      obtain ⟨hpw, hplen⟩ := (mem_walksBetween d s p).mp hp
      refine ⟨hpw, ?_, ?_⟩
      · by_contra hnd
        obtain ⟨w2, hw2, hlt⟩ := walk_drop_dup hpw hnd
        have := hmin w2 hw2
        omega
      · intro q hq
        have := hmin q hq
        omega
    · rintro ⟨hpw, _, hminp⟩
      have h1 : d + 1 ≤ p.length := hmin p hpw
      have h2 : p.length ≤ wd.length := hminp wd hwd
      exact (mem_walksBetween d s p).mpr ⟨hpw, by omega⟩

/-- C3 counterexample: on the single-edge graph a-b with the target the
absent node zzz, the call fails with the no-path condition (NetworkXNoPath:
the target is simply unreachable from the sources of the predecessor map)
and not with the node-not-found condition the claim requires for an absent
node. -/
theorem shortest_paths_absent_target_not_nodeNotFound :
    "zzz" ∉ (Graph.mk ["a", "b"] [("a", "b")]).nodes ∧
      shortest_paths (Graph.mk ["a", "b"] [("a", "b")]) "a" "zzz" = .error .noPath ∧
      shortest_paths (Graph.mk ["a", "b"] [("a", "b")]) "a" "zzz" ≠ .error .nodeNotFound := by
  decide

/-- Witness for C3 on the diamond graph, in which a and d are joined by the
two shortest paths a-b-d and a-c-d. -/
theorem shortest_paths_spec_witness :
    ∃ ps, shortest_paths Gdiamond "a" "d" = .ok ps ∧
      ∀ p, p ∈ ps ↔ IsWalk Gdiamond p "a" "d" ∧ p.Nodup ∧
        ∀ q, IsWalk Gdiamond q "a" "d" → p.length ≤ q.length :=
  (shortest_paths_spec Gdiamond "a" "d").2.2 (by decide) ["a", "b", "d"] (by decide)

/-! ## C4 : node_positions -/

/-- appendAt at the index right after a prefix appends into the addressed
bucket. -/
theorem appendAt_append (pre : List (List String)) (y : List String)
    (suf : List (List String)) (m : String) :
    appendAt (pre ++ y :: suf) pre.length m = pre ++ (y ++ [m]) :: suf := by
  induction pre with
  | nil => rfl
  | cons p0 pre ih =>
    simp only [List.cons_append, List.length_cons, appendAt, List.append_eq]
    rw [ih]

/-- The middle phase of the bucketing loop: with counter already past the
source, the intermediate nodes go one per bucket and the final node goes to
the target list. -/
theorem bucketNodes_phase (numL : Nat) :
    ∀ (mids : List String) (pre suf : List (List String)) (lastNode : String)
      (src tgt : List String),
      pre.length + mids.length = numL → suf.length = mids.length →
      bucketNodes numL (pre.length + 1) (mids ++ [lastNode]) (src, tgt, pre ++ suf) =
        (src, tgt ++ [lastNode], pre ++ suf.zipWith (fun ys m => ys ++ [m]) mids) := by
  intro mids
  induction mids with
  | nil =>
    intro pre suf lastNode src tgt h1 h2
    have hsuf : suf = [] := List.length_eq_zero.mp h2
    subst hsuf
    have hpre : pre.length = numL := by simpa using h1
    rw [List.nil_append, bucketNodes]
    rw [if_neg (by simp), if_neg (by omega)]
    simp
  | cons m ms ih =>
    intro pre suf lastNode src tgt h1 h2
    cases suf with
    | nil => simp at h2
    | cons y suf2 =>
      have hlt : pre.length + 1 < numL + 1 := by simp at h1; omega
      rw [List.cons_append, bucketNodes]
      rw [if_neg (by simp), if_pos hlt]
      have hidx : pre.length + 1 - 1 = pre.length := by omega
      rw [hidx, appendAt_append]
      have hstep : pre ++ (y ++ [m]) :: suf2 = (pre ++ [y ++ [m]]) ++ suf2 := by simp
      have hcnt : pre.length + 1 + 1 = (pre ++ [y ++ [m]]).length + 1 := by simp
      rw [hstep, hcnt, ih (pre ++ [y ++ [m]]) suf2 lastNode src tgt
        (by simp at h1 ⊢; omega) (by simp at h2 ⊢; omega)]
      simp

/-- The bucketing loop on one full-length path: the head goes to the source
list, the tail middle goes one node per bucket, the last node goes to the
target list. -/
theorem bucketNodes_path (numL : Nat) (p : List String) (hp : p.length = numL + 2)
    (src tgt : List String) (layers : List (List String)) (hl : layers.length = numL) :
    bucketNodes numL 0 p (src, tgt, layers) =
      (src ++ [p.headD ""], tgt ++ [p.getLastD ""],
        layers.zipWith (fun ys m => ys ++ [m]) p.tail.dropLast) := by
  cases p with
  | nil => simp at hp
  | cons x rest =>
    have hrest : rest.length = numL + 1 := by simpa using hp
    have hrne : rest ≠ [] := by
      intro hcon
      rw [hcon] at hrest
      simp at hrest
    have hsplit : rest = rest.dropLast ++ [rest.getLast hrne] :=
      (List.dropLast_append_getLast hrne).symm
    have hmlen : rest.dropLast.length = numL := by
      simp [List.length_dropLast, hrest]
    rw [bucketNodes, if_pos (by simp)]
    rw [show (0 : Nat) + 1 = ([] : List (List String)).length + 1 from rfl]
    rw [show layers = ([] : List (List String)) ++ layers from rfl]
    conv in bucketNodes numL _ rest _ => rw [hsplit]
    rw [bucketNodes_phase numL rest.dropLast [] layers (rest.getLast hrne)
      (src ++ [x]) tgt (by simpa using hmlen) (by rw [hl, hmlen])]
    have hlast : (x :: rest).getLastD "" = rest.getLast hrne := by
      rw [List.getLastD_eq_getLast?, List.getLast?_eq_getLast (x :: rest) (by simp)]
      simp [List.getLast_cons hrne]
    rw [hlast]
    simp

/-- Zipping a range map against an equally long list acts pointwise. -/
theorem zipWith_map_range (n : Nat) :
    ∀ (f : Nat → List String) (ms : List String), ms.length = n →
      ((List.range n).map f).zipWith (fun ys m => ys ++ [m]) ms =
        (List.range n).map fun j => f j ++ [ms.getD j ""] := by
  induction n with
  | zero =>
    intro f ms h
    have : ms = [] := List.length_eq_zero.mp h
    subst this
    rfl
  | succ n ih =>
    intro f ms h
    cases ms with
    | nil => simp at h
    | cons m ms2 =>
      rw [List.range_succ_eq_map]
      simp only [List.map_cons, List.map_map, List.zipWith_cons_cons]
      rw [ih (f ∘ Nat.succ) ms2 (by simpa using h)]
      simp [Function.comp, List.getD_cons_succ]

/-- mapIdx over a range map acts pointwise. -/
theorem mapIdx_map_range {β : Type} (n : Nat) :
    ∀ (g : Nat → List String) (F : Nat → List String → β),
      ((List.range n).map g).mapIdx F = (List.range n).map fun j => F j (g j) := by
  induction n with
  | zero => intro g F; rfl
  | succ n ih =>
    intro g F
    rw [List.range_succ_eq_map]
    simp only [List.map_cons, List.map_map, List.mapIdx_cons]
    rw [ih (g ∘ Nat.succ) (fun i => F (i + 1))]
    simp [Function.comp]

/-- The getD entry of the deduplicated-free middle of a path. -/
theorem tail_dropLast_getD (p : List String) (j : Nat) (hj : j + 2 < p.length) :
    p.tail.dropLast.getD j "" = p.getD (j + 1) "" := by
  cases p with
  | nil => simp at hj
  | cons x rest =>
    have hlen : j < rest.dropLast.length := by
      simp only [List.length_cons] at hj
      simp [List.length_dropLast]
      omega
    have h2 : j + 1 < (x :: rest).length := by
      simp only [List.length_cons] at hj ⊢
      omega
    rw [List.tail_cons, List.getD_eq_getElem _ _ hlen, List.getD_eq_getElem _ _ h2]
    rw [List.getElem_dropLast]
    simp

/-- The bucketing of a set of equal-length paths: sources in path order,
targets in path order, and bucket j holding the node at position j + 1 of
each path in path order. -/
theorem bucketAll_spec (numL : Nat) (paths : List (List String))
    (h : ∀ p ∈ paths, p.length = numL + 2) :
    bucketAll numL paths =
      ((paths.map fun p => p.headD ""), (paths.map fun p => p.getLastD ""),
        (List.range numL).map fun j => layer_of paths j) := by
  induction paths using List.reverseRecOn with
  | nil =>
    rw [bucketAll]
    simp only [List.foldl_nil, List.map_nil]
    simp [layer_of, List.map_const', List.length_range]
  | append_singleton ps p ih =>
    have hps : ∀ q ∈ ps, q.length = numL + 2 := fun q hq => h q (by simp [hq])
    have hp : p.length = numL + 2 := h p (by simp)
    rw [bucketAll, List.foldl_append, List.foldl_cons, List.foldl_nil]
    rw [show List.foldl (fun st path => bucketNodes numL 0 path st)
      ([], [], List.replicate numL []) ps = bucketAll numL ps from rfl]
    rw [ih hps]
    rw [bucketNodes_path numL p hp _ _ _ (by simp)]
    rw [zipWith_map_range numL (fun j => layer_of ps j) p.tail.dropLast
      (by simp [List.length_dropLast, hp])]
    refine congrArg₂ _ (by simp) (congrArg₂ _ (by simp) ?_)
    apply List.map_congr_left
    intro j hj
    rw [tail_dropLast_getD p j (by rw [hp]; simp at hj; omega)]
    simp [layer_of]

/-- find? returns the head of the filtered list. -/
theorem find?_eq_head?_filter {α : Type} (p : α → Bool) :
    ∀ l : List α, l.find? p = (l.filter p).head? := by
  intro l
  induction l with
  | nil => rfl
  | cons a l ih =>
    by_cases h : p a
    · rw [List.find?_cons_of_pos _ h, List.filter_cons_of_pos h]
      rfl
    · rw [List.find?_cons_of_neg _ (by simpa using h), List.filter_cons_of_neg (by simpa using h)]
      exact ih

/-- A last-write-wins lookup in a dictionary whose filtered entry list for
the key is a single binding returns that binding. -/
theorem posLookup_eq_of_filter (d : List (String × ℚ × ℚ)) (n : String) (v : ℚ × ℚ)
    (h : d.filter (fun kv => kv.1 == n) = [(n, v)]) : posLookup d n = some v := by
  rw [posLookup, find?_eq_head?_filter, List.filter_reverse, h]
  rfl

/-- The filtered entries of a keyed mapIdx block are empty when the key does
not occur in the underlying list. -/
theorem filter_mapIdx_not_mem (l : List String) (f : Nat → String → ℚ × ℚ)
    (n : String) (hn : n ∉ l) :
    ((l.mapIdx fun i a => (a, f i a)).filter fun kv => kv.1 == n) = [] := by
  induction l generalizing f with
  | nil => rfl
  | cons a l2 ih =>
    rw [List.mapIdx_cons]
    have hna : (((a, f 0 a) : String × ℚ × ℚ).1 == n) = false := by
      simp only [beq_eq_false_iff_ne, ne_eq]
      intro hcon
      exact hn (by simp [hcon])
    rw [List.filter_cons_of_neg (by simpa using hna)]
    exact ih (fun i => f (i + 1)) (fun hmem => hn (by simp [hmem]))

/-- The filtered entries of a keyed mapIdx block over a duplicate-free list,
at the key sitting at rank r, is the single entry produced at rank r. -/
theorem filter_mapIdx_nodup (l : List String) (f : Nat → String → ℚ × ℚ)
    (hl : l.Nodup) (r : Nat) (hr : r < l.length) :
    ((l.mapIdx fun i a => (a, f i a)).filter fun kv => kv.1 == l.getD r "") =
      [(l.getD r "", f r (l.getD r ""))] := by
  induction l generalizing f r with
  | nil => simp at hr
  | cons a l2 ih =>
    rw [List.mapIdx_cons]
    obtain ⟨ha, hl2⟩ := List.nodup_cons.mp hl
    cases r with
    | zero =>
      have hgd : (a :: l2).getD 0 "" = a := rfl
      rw [hgd, List.filter_cons_of_pos (by simp)]
      rw [filter_mapIdx_not_mem l2 _ a ha]
    | succ r2 =>
      have h2 : r2 < l2.length := by simpa using hr
      have hmem : l2.getD r2 "" ∈ l2 := by
        rw [List.getD_eq_getElem _ _ h2]
        exact List.getElem_mem h2
      have hgd2 : (a :: l2).getD (r2 + 1) "" = l2.getD r2 "" := rfl
      rw [hgd2]
      rw [List.filter_cons_of_neg (by
        intro hcon
        simp only [beq_iff_eq] at hcon
        exact ha (by rw [hcon]; exact hmem))]
      exact ih (fun i => f (i + 1)) hl2 r2 h2

/-- A flatten of all-empty lists is empty. -/
theorem flatten_eq_nil_of_all {α : Type} :
    ∀ L : List (List α), (∀ i, i < L.length → L.getD i [] = []) → L.flatten = [] := by
  intro L
  induction L with
  | nil => intro _; rfl
  | cons X L2 ih =>
    intro h
    have h0 : X = [] := h 0 (by simp)
    rw [List.flatten_cons, h0, List.nil_append]
    exact ih fun i hi => by
      have := h (i + 1) (by simp only [List.length_cons]; omega)
      simpa [List.getD_cons_succ] using this

/-- A flatten whose blocks are all empty except one singleton is that
singleton. -/
theorem flatten_eq_singleton {α : Type} :
    ∀ (L : List (List α)) (j : Nat) (e : α),
      j < L.length → (∀ i, i < L.length → i ≠ j → L.getD i [] = []) →
      L.getD j [] = [e] → L.flatten = [e] := by
  intro L
  induction L with
  | nil =>
    intro j e hj
    simp at hj
  | cons X L2 ih =>
    intro j e hj hothers hj2
    cases j with
    | zero =>
      rw [List.getD_cons_zero] at hj2
      rw [List.flatten_cons, hj2]
      have hrest : L2.flatten = [] := flatten_eq_nil_of_all L2 fun i hi => by
        have := hothers (i + 1) (by simp only [List.length_cons]; omega) (by omega)
        simpa [List.getD_cons_succ] using this
      rw [hrest, List.append_nil]
    | succ j2 =>
      rw [List.getD_cons_succ] at hj2
      have hX : X = [] := hothers 0 (by simp) (by omega)
      rw [List.flatten_cons, hX, List.nil_append]
      exact ih j2 e (by simpa using hj)
        (fun i hi hne => by
          have := hothers (i + 1) (by simp only [List.length_cons]; omega) (by omega)
          simpa [List.getD_cons_succ] using this) hj2

/-- Filtering commutes with flattening. -/
theorem filter_flatten_eq {α : Type} (p : α → Bool) :
    ∀ L : List (List α), L.flatten.filter p = (L.map fun l => l.filter p).flatten := by
  intro L
  induction L with
  | nil => rfl
  | cons X L2 ih => simp [List.flatten_cons, List.filter_append, ih]

/-- The getD entry of a map over a range. -/
theorem mapRange_getD {α : Type} (n j : Nat) (f : Nat → α) (d : α) (hj : j < n) :
    ((List.range n).map f).getD j d = f j := by
  rw [List.getD_eq_getElem _ _ (by simpa using hj)]
  simp

/-- A nonempty list all of whose elements equal a deduplicates to that
single element. -/
theorem dedup_const {l : List String} {a : String} (hne : l ≠ []) (h : ∀ x ∈ l, x = a) :
    l.dedup = [a] := by
  induction l with
  | nil => exact absurd rfl hne
  | cons x l2 ih =>
    obtain rfl : x = a := h x (by simp)
    cases l2 with
    | nil => rfl
    | cons y l3 =>
      have hy : y = x := h y (by simp)
      have hmem : x ∈ y :: l3 := by
        rw [hy]
        simp
      rw [List.dedup_cons_of_mem hmem]
      exact ih (by simp) fun z hz => h z (by simp [hz])

/-- C4: for a nonempty set of equal-length paths with one source and one
target (the source, the target and the intermediate layers all naming
distinct nodes), node_positions pins the source at (0.1, 0.5) and the target
at (0.9, 0.5); the node of rank r within the deduplicated layer j (of k
distinct nodes) receives the position (layer_index / (num_layers + 1),
1 - (r + 1) / (k + 1)), where layer_index = j + 1 is the position of the
layer nodes along the path and num_layers + 1 = L - 1. -/
theorem node_positions_spec (paths : List (List String)) (s t : String) (L : Nat)
    (hne : paths ≠ []) (hL : 2 ≤ L) (hst : s ≠ t)
    (hlen : ∀ p ∈ paths, p.length = L)
    (hhead : ∀ p ∈ paths, p.headD "" = s)
    (hlast : ∀ p ∈ paths, p.getLastD "" = t)
    (hs : ∀ j, j < L - 2 → s ∉ layer_of paths j)
    (ht : ∀ j, j < L - 2 → t ∉ layer_of paths j)
    (hdisj : ∀ j1, j1 < L - 2 → ∀ j2, j2 < L - 2 → j1 ≠ j2 →
      ∀ x, x ∈ layer_of paths j1 → x ∉ layer_of paths j2) :
    posLookup (node_positions paths) s = some (1/10, 1/2) ∧
    posLookup (node_positions paths) t = some (9/10, 1/2) ∧
    ∀ j, j < L - 2 → ∀ r, r < (layer_of paths j).dedup.length →
      posLookup (node_positions paths) ((layer_of paths j).dedup.getD r "") =
        some (((j : ℚ) + 1) / ((L : ℚ) - 1),
          1 - ((r : ℚ) + 1) / (((layer_of paths j).dedup.length : ℚ) + 1)) := by
  have hmem0 : paths.headD [] ∈ paths := by
    cases paths with
    | nil => exact absurd rfl hne
    | cons a l => exact List.mem_cons_self a l
  have hnum : (paths.headD []).length - 2 = L - 2 := by rw [hlen _ hmem0]
  have hbucket := bucketAll_spec (L - 2) paths fun p hp => by rw [hlen p hp]; omega
  have hsrc : (paths.map fun p => p.headD "").dedup = [s] := by
    refine dedup_const (fun hcon => hne (List.map_eq_nil_iff.mp hcon)) ?_
    intro x hx
    obtain ⟨p, hp, rfl⟩ := List.mem_map.mp hx
    exact hhead p hp
  have htgt : (paths.map fun p => p.getLastD "").dedup = [t] := by
    refine dedup_const (fun hcon => hne (List.map_eq_nil_iff.mp hcon)) ?_
    intro x hx
    obtain ⟨p, hp, rfl⟩ := List.mem_map.mp hx
    exact hlast p hp
  have hD : node_positions paths =
      [(s, (1/10, 1/2)), (t, (9/10, 1/2))] ++
        ((List.range (L - 2)).map (layerBlock paths (L - 2))).flatten := by
    simp only [node_positions, hnum, hbucket, List.map_map]
    rw [hsrc, htgt]
    rw [mapIdx_map_range]
    rfl
  have hbfilter_empty : ∀ (n : String) (i : Nat), i < L - 2 → n ∉ layer_of paths i →
      (layerBlock paths (L - 2) i).filter (fun kv => kv.1 == n) = [] := by
    intro n i hi hn
    rw [layerBlock]
    apply filter_mapIdx_not_mem
    intro hmem
    exact hn (List.mem_dedup.mp hmem)
  have hflatten_empty : ∀ n : String, (∀ i, i < L - 2 → n ∉ layer_of paths i) →
      ((((List.range (L - 2)).map (layerBlock paths (L - 2))).flatten).filter
        fun kv => kv.1 == n) = [] := by
    intro n hn
    rw [filter_flatten_eq, List.map_map]
    apply flatten_eq_nil_of_all
    intro i hi
    have hi2 : i < L - 2 := by simpa using hi
    rw [mapRange_getD _ _ _ _ hi2]
    exact hbfilter_empty n i hi2 (hn i hi2)
  refine ⟨?_, ?_, ?_⟩
  · refine posLookup_eq_of_filter _ _ _ ?_
    rw [hD, List.filter_append]
    rw [hflatten_empty s hs, List.append_nil]
    rw [List.filter_cons_of_pos (by simp), List.filter_cons_of_neg (by
      simp only [beq_iff_eq]
      exact fun hcon => hst hcon.symm), List.filter_nil]
  · refine posLookup_eq_of_filter _ _ _ ?_
    rw [hD, List.filter_append]
    rw [hflatten_empty t ht, List.append_nil]
    rw [List.filter_cons_of_neg (by
      simp only [beq_iff_eq]
      exact fun hcon => hst hcon), List.filter_cons_of_pos (by simp), List.filter_nil]
  · intro j hj r hr
    have hnmemD : (layer_of paths j).dedup.getD r "" ∈ (layer_of paths j).dedup := by
      rw [List.getD_eq_getElem _ _ hr]
      exact List.getElem_mem hr
    have hnmem : (layer_of paths j).dedup.getD r "" ∈ layer_of paths j :=
      List.mem_dedup.mp hnmemD
    have hns : (layer_of paths j).dedup.getD r "" ≠ s := fun hcon => hs j hj (hcon ▸ hnmem)
    have hnt : (layer_of paths j).dedup.getD r "" ≠ t := fun hcon => ht j hj (hcon ▸ hnmem)
    have hfilter : ((node_positions paths).filter
        fun kv => kv.1 == (layer_of paths j).dedup.getD r "") =
        [((layer_of paths j).dedup.getD r "",
          ((layerXs (L - 2)).getD j 0,
           1 - (1 / (((layer_of paths j).dedup.length : ℚ) + 1)) * ((r : ℚ) + 1)))] := by
      rw [hD, List.filter_append]
      rw [List.filter_cons_of_neg (by
        simp only [beq_iff_eq]
        exact fun hcon => hns hcon.symm), List.filter_cons_of_neg (by
        simp only [beq_iff_eq]
        exact fun hcon => hnt hcon.symm), List.filter_nil, List.nil_append]
      rw [filter_flatten_eq, List.map_map]
      refine flatten_eq_singleton _ j _ (by simpa using hj) ?_ ?_
      · intro i hi hij
        have hi2 : i < L - 2 := by simpa using hi
        rw [mapRange_getD _ _ _ _ hi2]
        exact hbfilter_empty _ i hi2
          (hdisj j hj i hi2 (fun hcon => hij hcon.symm) _ hnmem)
      · rw [mapRange_getD _ _ _ _ hj]
        show ((layerBlock paths (L - 2) j).filter _) = _
        rw [layerBlock]
        exact filter_mapIdx_nodup _ _ (List.nodup_dedup _) r hr
    rw [posLookup_eq_of_filter _ _ _ hfilter]
    have hx : (layerXs (L - 2)).getD j 0 = ((j : ℚ) + 1) / ((L : ℚ) - 1) := by
      rw [layerXs, mapRange_getD _ _ _ _ hj]
      have hc : ((L - 2 : ℕ) : ℚ) = (L : ℚ) - 2 := by
        rw [Nat.cast_sub hL]
        norm_num
      rw [hc]
      have h1 : (L : ℚ) - 2 + 1 = (L : ℚ) - 1 := by ring
      rw [h1, one_div_mul_eq_div]
    have hy : 1 - (1 / (((layer_of paths j).dedup.length : ℚ) + 1)) * ((r : ℚ) + 1) =
        1 - ((r : ℚ) + 1) / (((layer_of paths j).dedup.length : ℚ) + 1) := by
      rw [one_div_mul_eq_div]
    rw [hx, hy]

/-- Witness for C4 on the one-layer two-path network s-m1-t, s-m2-t: the two
middle nodes share the x coordinate 1/2 and take the y coordinates 2/3 and
1/3. -/
theorem node_positions_spec_witness :
    posLookup (node_positions [["s", "m1", "t"], ["s", "m2", "t"]]) "s" = some (1/10, 1/2) ∧
    posLookup (node_positions [["s", "m1", "t"], ["s", "m2", "t"]]) "t" = some (9/10, 1/2) ∧
    posLookup (node_positions [["s", "m1", "t"], ["s", "m2", "t"]]) "m1" = some (1/2, 2/3) ∧
    posLookup (node_positions [["s", "m1", "t"], ["s", "m2", "t"]]) "m2" = some (1/2, 1/3) := by
  have h := node_positions_spec [["s", "m1", "t"], ["s", "m2", "t"]] "s" "t" 3
    (by decide) (by decide) (by decide) (by decide) (by decide) (by decide)
    (by decide) (by decide)
    (by
      intro j1 h1 j2 h2 hne12
      exact absurd (by omega : j1 = j2) hne12)
  have h1 := h.2.2 0 (by decide) 0 (by decide)
  have h2 := h.2.2 0 (by decide) 1 (by decide)
  have hlen0 : (layer_of [["s", "m1", "t"], ["s", "m2", "t"]] 0).dedup.length = 2 := by decide
  rw [hlen0] at h1 h2
  refine ⟨h.1, h.2.1, h1.trans (by norm_num), h2.trans (by norm_num)⟩

end MindsetStreams
